import Mathlib

set_option maxRecDepth 100000

/-!
Verification development for the anova distributed-ledger core.

The Rust sources are embedded shallowly:
* bytes are `Nat` values below 256, byte strings are `List Nat`;
* `u64` quantities are `Nat` (nonces and lengths stay far below `2 ^ 64`
  in every scenario; where 64-bit wrap-around matters the embedding
  reduces modulo `2 ^ 64` explicitly, e.g. in the Keccak lanes);
* Rust functions that can panic (via `unwrap`) are embedded as
  `Option`-valued functions, `none` marking the aborting execution;
* the `sha3` crate's `Keccak256` (pre-NIST padding `0x01`) is
  implemented concretely so that the pinned byte vectors of the spec
  can be evaluated.
-/

/-! ## Keccak-256 (`utils::hash`, src/src/utils.rs) -/

/-- Left rotation of a 64-bit lane held as a `Nat` below `2 ^ 64`. -/
def rotl64 (x n : Nat) : Nat :=
  ((x <<< n) ||| (x >>> (64 - n))) % (2 ^ 64)

/-- Bit `t` of the Keccak round-constant LFSR (polynomial
x^8 + x^6 + x^5 + x^4 + 1 over GF(2), seeded with 1). -/
def keccakRcBit (t : Nat) : Nat :=
  ((List.range (t % 255)).foldl (fun R _ =>
    let R2 := R * 2
    if 256 ≤ R2 then (R2 % 256) ^^^ 0x71 else R2) 1) % 2

/-- The 24 Keccak-f[1600] round constants: bit `2 ^ j - 1` of constant
`i` is LFSR bit `j + 7 * i`. -/
def keccakRC : List Nat :=
  (List.range 24).map (fun i =>
    (List.range 7).foldl (fun acc j => acc + keccakRcBit (j + 7 * i) * 2 ^ (2 ^ j - 1)) 0)

/-- Rotation offsets, indexed by `x + 5 * y`: position (1,0) walks under
(x,y) := (y, 2x+3y) while the offset runs through the triangular numbers
modulo 64; position (0,0) keeps offset 0. -/
def keccakRho : List Nat :=
  ((List.range 24).foldl
    (fun (acc : List Nat × Nat × Nat) t =>
      ((acc.1.set (acc.2.1 + 5 * acc.2.2) (((t + 1) * (t + 2) / 2) % 64)),
        (acc.2.2, (2 * acc.2.1 + 3 * acc.2.2) % 5)))
    (List.replicate 25 0, (1, 0))).1

/-- One Keccak-f round (theta, rho, pi, chi, iota) on a 25-lane state. -/
def keccakRound (st : List Nat) (rc : Nat) : List Nat :=
  let A := fun i => st.getD i 0
  let C := fun x => A x ^^^ A (x + 5) ^^^ A (x + 10) ^^^ A (x + 15) ^^^ A (x + 20)
  let D := fun x => C ((x + 4) % 5) ^^^ rotl64 (C ((x + 1) % 5)) 1
  let A2 := (List.range 25).map (fun i => A i ^^^ D (i % 5))
  let B := (List.range 25).foldl (fun acc i =>
      let x := i % 5
      let y := i / 5
      acc.set (y + 5 * ((2 * x + 3 * y) % 5)) (rotl64 (A2.getD i 0) (keccakRho.getD i 0)))
    (List.replicate 25 0)
  let E := (List.range 25).map (fun i =>
      let x := i % 5
      let y := i / 5
      B.getD i 0 ^^^ ((B.getD ((x + 1) % 5 + 5 * y) 0 ^^^ (2 ^ 64 - 1)) &&& B.getD ((x + 2) % 5 + 5 * y) 0))
  E.set 0 (E.getD 0 0 ^^^ rc)

/-- The full Keccak-f[1600] permutation. -/
def keccakF (st : List Nat) : List Nat := keccakRC.foldl keccakRound st

/-- Eight bytes, little-endian, to one 64-bit lane. -/
def laneOfBytes (bs : List Nat) : Nat := bs.foldr (fun b acc => acc * 256 + b) 0

/-- One 64-bit lane to eight bytes, little-endian. -/
def bytesOfLane (lane : Nat) : List Nat := (List.range 8).map (fun k => lane >>> (8 * k) % 256)

/-- Multi-rate padding with the legacy Keccak domain byte `0x01` (rate 136). -/
def keccakPad (msg : List Nat) : List Nat :=
  let padLen := 136 - msg.length % 136
  if padLen == 1 then msg ++ [0x81]
  else msg ++ [0x01] ++ List.replicate (padLen - 2) 0 ++ [0x80]

/-- Absorb one 136-byte block into the state and permute. -/
def keccakAbsorb (st : List Nat) (block : List Nat) : List Nat :=
  keccakF ((List.range 25).map (fun i =>
    if i < 17 then st.getD i 0 ^^^ laneOfBytes ((block.drop (8 * i)).take 8) else st.getD i 0))

/-- Keccak-256 digest of a byte list; embeds `utils::hash` (src/src/utils.rs),
the `sha3` crate's `Keccak256`. -/
def hash (data : List Nat) : List Nat :=
  let padded := keccakPad data
  let final := (List.range (padded.length / 136)).foldl
    (fun st k => keccakAbsorb st ((padded.drop (136 * k)).take 136)) (List.replicate 25 0)
  ((List.range 4).map (fun i => bytesOfLane (final.getD i 0))).flatten

/-! ## bincode v1 encoding (fixed-width little-endian integers,
u64 length prefixes, option tag byte) -/

/-- A `u64` as eight little-endian bytes. -/
def u64le (n : Nat) : List Nat := (List.range 8).map (fun k => n >>> (8 * k) % 256)

/-- bincode encoding of a `Vec<u8>`: u64-LE length then the raw bytes. -/
def encBytes (bs : List Nat) : List Nat := u64le bs.length ++ bs

/-- bincode encoding of an `Option<Vec<u8>>`: tag byte 0/1, then the value. -/
def encOptBytes : Option (List Nat) → List Nat
  | none => [0]
  | some bs => 1 :: encBytes bs

/-! ## Transaction (src/src/transaction.rs) -/

/-- A Transaction record: content-derived `id`, opaque `sender`, `nonce`. -/
structure Transaction where
  id : List Nat
  sender : List Nat
  nonce : Nat
  deriving DecidableEq, Repr

/-- `Transaction::serialize`: bincode of the `(sender, nonce)` pair. -/
def Transaction.serialize (sender : List Nat) (nonce : Nat) : List Nat :=
  encBytes sender ++ u64le nonce

/-- `Transaction::generate_id`: Keccak-256 of the serialized pair. -/
def Transaction.generate_id (sender : List Nat) (nonce : Nat) : List Nat :=
  hash (Transaction.serialize sender nonce)

/-- `Transaction::new`. -/
def Transaction.new (sender : List Nat) (nonce : Nat) : Transaction :=
  { id := Transaction.generate_id sender nonce, sender := sender, nonce := nonce }

/-- The serde-derived bincode encoding of a full `Transaction` record
(fields `id`, `sender`, `nonce` in declaration order), as used when a
transaction is embedded in Block bytes. -/
def Transaction.encodeRecord (tx : Transaction) : List Nat :=
  encBytes tx.id ++ encBytes tx.sender ++ u64le tx.nonce

/-- bincode encoding of a `Vec<Transaction>`: u64-LE count then records. -/
def encTxs (txs : List Transaction) : List Nat :=
  u64le txs.length ++ (txs.map Transaction.encodeRecord).flatten

/-! ## Block (src/src/block.rs) -/

/-- A Block: content-derived `id`, ordered transactions, optional predecessor. -/
structure Block where
  id : List Nat
  transactions : List Transaction
  prev_block_id : Option (List Nat)
  deriving DecidableEq, Repr

/-- `Block::serialize`: bincode of the `(transactions, prev_block_id)` pair. -/
def Block.serialize (txs : List Transaction) (prev : Option (List Nat)) : List Nat :=
  encTxs txs ++ encOptBytes prev

/-- `Block::generate_id`. -/
def Block.generate_id (txs : List Transaction) (prev : Option (List Nat)) : List Nat :=
  hash (Block.serialize txs prev)

/-- `Block::new`. -/
def Block.new (txs : List Transaction) (prev : Option (List Nat)) : Block :=
  { id := Block.generate_id txs prev, transactions := txs, prev_block_id := prev }

/-- `Block::set_previous_block_id`: replaces the predecessor and re-derives `id`. -/
def Block.set_previous_block_id (b : Block) (prev : Option (List Nat)) : Block :=
  { b with prev_block_id := prev, id := Block.generate_id b.transactions prev }

example : Transaction.generate_id [1, 2, 3, 4, 5] 42 =
    [242, 173, 79, 62, 149, 64, 34, 43, 218, 41, 24, 9, 145, 148, 96, 195, 129, 80, 125,
     126, 255, 231, 209, 59, 221, 242, 186, 41, 33, 28, 79, 50] := by decide

/-! ## bincode v1 decoding (as invoked by `deserialize`; the standalone
`bincode::deserialize` permits trailing bytes, so each reader returns the
decoded value together with the unconsumed rest, and a top-level
`deserialize` ignores the rest) -/

/-- Read exactly `n` raw bytes. -/
def readBytesN (n : Nat) (data : List Nat) : Option (List Nat × List Nat) :=
  if n ≤ data.length then some (data.take n, data.drop n) else none

/-- Read a `u64` (eight little-endian bytes). -/
def readU64 (data : List Nat) : Option (Nat × List Nat) :=
  match readBytesN 8 data with
  | some (bs, rest) => some (laneOfBytes bs, rest)
  | none => none

/-- Read a `Vec<u8>`: u64-LE length then that many bytes. -/
def readVecU8 (data : List Nat) : Option (List Nat × List Nat) :=
  match readU64 data with
  | some (n, rest) => readBytesN n rest
  | none => none

/-- Read an `Option<Vec<u8>>`: tag byte 0 or 1; any other tag is an
invalid-tag decode error. -/
def readOptVecU8 (data : List Nat) : Option (Option (List Nat) × List Nat) :=
  match data with
  | 0 :: rest => some (none, rest)
  | 1 :: rest =>
    match readVecU8 rest with
    | some (bs, r2) => some (some bs, r2)
    | none => none
  | _ => none

/-- Read one serde-derived `Transaction` record (`id`, `sender`, `nonce`).
The stored `id` is read verbatim; nothing recomputes or checks it. -/
def readTransaction (data : List Nat) : Option (Transaction × List Nat) :=
  match readVecU8 data with
  | none => none
  | some (i, r1) =>
    match readVecU8 r1 with
    | none => none
    | some (s, r2) =>
      match readU64 r2 with
      | none => none
      | some (n, r3) => some (⟨i, s, n⟩, r3)

/-- Read `n` `Transaction` records. -/
def readTransactions : Nat → List Nat → Option (List Transaction × List Nat)
  | 0, data => some ([], data)
  | n + 1, data =>
    match readTransaction data with
    | none => none
    | some (tx, rest) =>
      match readTransactions n rest with
      | none => none
      | some (txs, r2) => some (tx :: txs, r2)

/-- `Transaction::deserialize` (src/src/transaction.rs): bincode-decodes a
`(sender, nonce)` pair and rebuilds the record via `Transaction::new`,
which recomputes the id; the source `unwrap`s the bincode result, so a
malformed input aborts the process, embedded here as `none`. The encoded
pair carries no stored id, so no id comparison can occur. -/
def Transaction.deserialize (data : List Nat) : Option Transaction :=
  match readVecU8 data with
  | none => none
  | some (s, r1) =>
    match readU64 r1 with
    | none => none
    | some (n, _) => some (Transaction.new s n)

/-- `Block::deserialize` (src/src/block.rs): bincode-decodes the
`(transactions, prev_block_id)` pair (transaction ids read verbatim and
never checked) and rebuilds via `Block::new`; the source `unwrap`s the
bincode result, so a malformed input aborts, embedded here as `none`. -/
def Block.deserialize (data : List Nat) : Option Block :=
  match readU64 data with
  | none => none
  | some (n, r1) =>
    match readTransactions n r1 with
    | none => none
    | some (txs, r2) =>
      match readOptVecU8 r2 with
      | none => none
      | some (prev, _) => some (Block.new txs prev)

/-! ## Chain (src/src/chain.rs) -/

/-- `Chain::append`: rebinds the incoming block's predecessor to the id of
the current tip (re-deriving the block id), pushes it, and returns the new
chain together with the returned height (`len - 1` after the push). -/
def Chain.append (c : List Block) (b : Block) : List Block × Nat :=
  let previous_block_id := c.getLast?.map Block.id
  let b2 := b.set_previous_block_id previous_block_id
  ((c ++ [b2]), (c ++ [b2]).length - 1)

/-! ## Mempool (src/src/mempool.rs): a `BTreeMap<Keccak256, Transaction>`,
embedded as an association list kept sorted by byte-lexicographic key
order (the `Ord` of `Vec<u8>`) -/

/-- Strict byte-lexicographic order on byte strings, the `Ord` used by
`BTreeMap<Vec<u8>, _>`. -/
def bytesLt : List Nat → List Nat → Bool
  | _, [] => false
  | [], _ :: _ => true
  | a :: as, b :: bs => a < b || (a == b && bytesLt as bs)

/-- The mempool state: key-sorted entry list. -/
structure Mempool where
  entries : List (List Nat × Transaction)
  deriving DecidableEq, Repr

/-- Ordered-map insert with replacement on an equal key
(`BTreeMap::insert` upsert behaviour). -/
def Mempool.insertEntry : List (List Nat × Transaction) → List Nat → Transaction →
    List (List Nat × Transaction)
  | [], k, tx => [(k, tx)]
  | (k2, tx2) :: rest, k, tx =>
    if bytesLt k k2 then (k, tx) :: (k2, tx2) :: rest
    else if k = k2 then (k, tx) :: rest
    else (k2, tx2) :: Mempool.insertEntry rest k tx

/-- `Mempool::insert`. -/
def Mempool.insert (m : Mempool) (k : List Nat) (tx : Transaction) : Mempool :=
  ⟨Mempool.insertEntry m.entries k tx⟩

/-- `BTreeMap::get` by key. -/
def Mempool.lookupEntry : List (List Nat × Transaction) → List Nat → Option Transaction
  | [], _ => none
  | (k2, tx) :: rest, k => if k = k2 then some tx else Mempool.lookupEntry rest k

/-- `BTreeMap::remove`: drop the entry with the given key, if present. -/
def Mempool.removeEntry : List (List Nat × Transaction) → List Nat →
    List (List Nat × Transaction)
  | [], _ => []
  | (k2, tx2) :: rest, k => if k = k2 then rest else (k2, tx2) :: Mempool.removeEntry rest k

/-- `Mempool::len`. -/
def Mempool.len (m : Mempool) : Nat := m.entries.length

/-- `Mempool::remove_transactions`: remove each listed index, counting the
ones that were present. -/
def Mempool.remove_transactions (m : Mempool) (ks : List (List Nat)) : Mempool × Nat :=
  ks.foldl (fun acc k =>
    match Mempool.lookupEntry acc.1.entries k with
    | some _ => (⟨Mempool.removeEntry acc.1.entries k⟩, acc.2 + 1)
    | none => (acc.1, acc.2)) (m, 0)

/-- `Mempool::get_all_transactions`: `none` when empty, otherwise the
values in ascending key order (`BTreeMap::values`). -/
def Mempool.get_all_transactions (m : Mempool) : Option (List Transaction) :=
  if m.len ≠ 0 then some (m.entries.map Prod.snd) else none

/-! ## Node (src/src/node.rs) -/

/-- A Node: chain, mempool and the local nonce. `create_transaction`
draws its sender from an external RNG and is not modelled; every claim
concerns the deterministic operations below. -/
structure Node where
  chain : List Block
  mempool : Mempool
  nonce : Nat
  deriving Repr

/-- The id of the chain tip, `None` for an empty chain. -/
def tipId (c : List Block) : Option (List Nat) := c.getLast?.map Block.id

/-- `Node::generate_transaction_index`:
`hash(bincode((tx.id, tip_id_or_None)))`. -/
def Node.generate_transaction_index (c : List Block) (tx : Transaction) : List Nat :=
  hash (encBytes tx.id ++ encOptBytes (tipId c))

/-- `Node::add_transaction`. -/
def Node.add_transaction (n : Node) (tx : Transaction) : Node :=
  { n with mempool := n.mempool.insert (Node.generate_transaction_index n.chain tx) tx }

/-- `Node::propose_block`: `None` on an empty mempool, otherwise a fresh
block over all mempool transactions with the current tip as predecessor. -/
def Node.propose_block (n : Node) : Option Block :=
  match n.mempool.get_all_transactions with
  | some txs => some (Block.new txs (tipId n.chain))
  | none => none

/-- `Node::finalize_block`: compute the indexes of the block's
transactions against the old tip, append the block, remove those indexes,
then drain and re-insert every surviving transaction under its index
against the new tip. -/
def Node.finalize_block (n : Node) (b : Block) : Node :=
  let txIndexes := b.transactions.map (Node.generate_transaction_index n.chain)
  let chain2 := (Chain.append n.chain b).1
  let mp2 := (Mempool.remove_transactions n.mempool txIndexes).1
  match mp2.get_all_transactions with
  | none => { chain := chain2, mempool := mp2, nonce := n.nonce }
  | some txs =>
    { chain := chain2,
      mempool := txs.foldl
        (fun acc tx => acc.insert (Node.generate_transaction_index chain2 tx) tx) ⟨[]⟩,
      nonce := n.nonce }



/-! ## Snowball, weighted-map variant (src/src/snowball.rs).

The source state is generic over `T : Eq + Hash`; votes arrive as a
`HashMap<T, f64>`. The embedding uses an association list for both the
vote map (its order standing for the hash map's iteration order; the keys
of a `HashMap` are distinct) and the per-value counter map, and exact
rationals for the `f64` weights (every weight and threshold in the claims
is small enough to be exact in `f64`, where the two arithmetics agree).
The `u8` counters are embedded as `Nat`; their increments abort on
overflow in the checked profile, and no claim exercises values near
`2 ^ 8`. -/

structure Snowball (T : Type) where
  value : Option T
  done : Bool
  counter : Nat
  counters : List (T × Nat)
  sample_size : Nat
  quorum_size : Nat
  decision_threshold : Nat
  deriving DecidableEq, Repr

/-- `Snowball::new`. -/
def Snowball.new (T : Type) (k a b : Nat) : Snowball T :=
  { value := none, done := false, counter := 0, counters := [],
    sample_size := k, quorum_size := a, decision_threshold := b }

/-- `HashMap::get` on the counter map. -/
def counterGet [DecidableEq T] : List (T × Nat) → T → Option Nat
  | [], _ => none
  | (w, c) :: rest, v => if v = w then some c else counterGet rest v

/-- `counters.entry(favorite).or_insert(0) += 1`. -/
def counterBump [DecidableEq T] : List (T × Nat) → T → List (T × Nat)
  | [], v => [(v, 1)]
  | (w, c) :: rest, v => if v = w then (w, c + 1) :: rest else (w, c) :: counterBump rest v

/-- The counter value read back through `get`, defaulting to 0. -/
def counterVal [DecidableEq T] (cs : List (T × Nat)) (v : T) : Nat :=
  (counterGet cs v).getD 0

/-- Rust's `PartialOrd` on `Option<u8>` restricted to `>`:
`None` is below every `Some`. -/
def optGt : Option Nat → Option Nat → Bool
  | some a, some b => b < a
  | some _, none => true
  | none, _ => false

/-- The favorite-selection loop: first value of strictly maximal weight in
iteration order, starting from `(None, 0.0)`. -/
def favoriteOf (T : Type) (votes : List (T × ℚ)) : Option T × ℚ :=
  votes.foldl (fun acc p => if acc.2 < p.2 then (some p.1, p.2) else acc) (none, 0)

/-- `Snowball::tick` (weighted variant). `none` embeds the aborting
`favorite.unwrap()` on a quorum with no favorite. -/
def Snowball.tick [DecidableEq T] (sb : Snowball T) (votes : List (T × ℚ)) :
    Option (Snowball T) :=
  if sb.done then some sb
  else
    let denom : ℚ := max (votes.length : ℚ) 2
    let fav := favoriteOf T votes
    if (sb.quorum_size : ℚ) * 2 / denom ≤ fav.2 then
      match fav.1 with
      | none => none
      | some favorite =>
        let old_value := sb.value
        let cs := counterBump sb.counters favorite
        let newValue :=
          match sb.value with
          | none => some favorite
          | some v => if optGt (counterGet cs favorite) (counterGet cs v) then some favorite
                      else some v
        let sb2 := { sb with value := newValue, counters := cs,
                             counter := if some favorite = old_value then sb.counter + 1 else 1 }
        some (if sb2.decision_threshold < sb2.counter then { sb2 with done := true } else sb2)
    else
      let sb2 := { sb with counter := 0 }
      some (if sb2.decision_threshold < sb2.counter then { sb2 with done := true } else sb2)

/-! ## Snowball, multiset variant (src/src/consensus/snowball.rs). -/

structure MSnowball (T : Type) where
  value : Option T
  is_done : Bool
  successes : Nat
  sample_size : Nat
  quorum_size : Nat
  decision_threshold : Nat
  deriving DecidableEq, Repr

/-- `Snowball::new` (multiset variant). -/
def MSnowball.new (T : Type) (k a b : Nat) : MSnowball T :=
  { value := none, is_done := false, successes := 0,
    sample_size := k, quorum_size := a, decision_threshold := b }

/-- `HashMap::get` on the count-to-value map built by `count_votes`. -/
def lookupCount (T : Type) : List (Nat × T) → Nat → Option T
  | [], _ => none
  | (c, v) :: rest, k => if k = c then some v else lookupCount T rest k

/-- `Snowball::count_votes`: maps the count of the first value and the
count `len - count(first)` to, respectively, the first value and the
first value differing from it. Both `unwrap`s (empty votes, no second
distinct value) and the `usize → u8` conversions abort, embedded as
`none`. The two `HashMap` inserts collapse to one entry when the counts
coincide. -/
def MSnowball.count_votes [DecidableEq T] (votes : List T) : Option (List (Nat × T)) :=
  match votes.head? with
  | none => none
  | some va =>
    match votes.find? (fun v => v != va) with
    | none => none
    | some vb =>
      let ca := votes.count va
      let cb := votes.length - ca
      if 255 < ca || 255 < cb then none
      else if cb = ca then some [(ca, vb)]
      else some [(ca, va), (cb, vb)]

/-- `Snowball::tick` (multiset variant). -/
def MSnowball.tick [DecidableEq T] (sb : MSnowball T) (votes : List T) :
    Option (MSnowball T) :=
  if sb.is_done then some sb
  else
    match MSnowball.count_votes votes with
    | none => none
    | some mappings =>
      match (mappings.map Prod.fst).max? with
      | none => none
      | some votes_max =>
        let sb2 :=
          if sb.quorum_size ≤ votes_max then
            let old_value := sb.value
            let newValue := lookupCount T mappings votes_max
            { sb with value := newValue,
                      successes := if newValue = old_value then sb.successes + 1 else 1 }
          else { sb with successes := 0 }
        some (if sb2.decision_threshold < sb2.successes then { sb2 with is_done := true }
              else sb2)

/-- A small closed vote-value type for the concrete scenarios. -/
inductive Color where
  | R
  | B
  | X
  deriving DecidableEq, Repr

/-- Fold a list of vote rounds through the multiset `tick`. -/
def mticks (sb : MSnowball Color) (rounds : List (List Color)) : Option (MSnowball Color) :=
  rounds.foldlM MSnowball.tick sb

/-- Fold a list of vote rounds through the weighted `tick`. -/
def wticks (sb : Snowball Color) (rounds : List (List (Color × ℚ))) :
    Option (Snowball Color) :=
  rounds.foldlM Snowball.tick sb


/-! ## Concrete scenario theorems -/

/-- C2: multiset Snowball with k=5, alpha=4, beta=3. One round of
[R,R,R,R,B] gives value R, counter 1, not done; after three such rounds
the counter is 3 and the instance is still not done (strict
counter > beta); after four it is done with counter 4; if the second
round is [R,R,B,B,X] there is no quorum, the counter drops to 0 and the
value remains R. -/
theorem c2_msnowball_scenario :
    mticks (MSnowball.new Color 5 4 3) [[Color.R, Color.R, Color.R, Color.R, Color.B]] =
      some { value := some Color.R, is_done := false, successes := 1,
             sample_size := 5, quorum_size := 4, decision_threshold := 3 } ∧
    mticks (MSnowball.new Color 5 4 3)
        (List.replicate 3 [Color.R, Color.R, Color.R, Color.R, Color.B]) =
      some { value := some Color.R, is_done := false, successes := 3,
             sample_size := 5, quorum_size := 4, decision_threshold := 3 } ∧
    mticks (MSnowball.new Color 5 4 3)
        (List.replicate 4 [Color.R, Color.R, Color.R, Color.R, Color.B]) =
      some { value := some Color.R, is_done := true, successes := 4,
             sample_size := 5, quorum_size := 4, decision_threshold := 3 } ∧
    mticks (MSnowball.new Color 5 4 3)
        [[Color.R, Color.R, Color.R, Color.R, Color.B],
         [Color.R, Color.R, Color.B, Color.B, Color.X]] =
      some { value := some Color.R, is_done := false, successes := 0,
             sample_size := 5, quorum_size := 4, decision_threshold := 3 } := by
  decide

/-- C8: the binary encoding is pinned bit-for-bit: the quoted transaction
pair encoding and the quoted one-transaction block encoding with a
predecessor, byte for byte. -/
theorem c8_encoding_pinned :
    Transaction.serialize [0, 1, 2, 3, 4] 42 =
      [5, 0, 0, 0, 0, 0, 0, 0, 0, 1, 2, 3, 4, 42, 0, 0, 0, 0, 0, 0, 0] ∧
    Block.serialize [Transaction.new [0, 1, 2, 3, 4] 1] (some [5, 6, 7, 8, 9]) =
      [1, 0, 0, 0, 0, 0, 0, 0,
       32, 0, 0, 0, 0, 0, 0, 0,
       196, 70, 213, 169, 141, 198, 53, 47, 112, 185, 125, 254, 146, 41, 135, 204,
       30, 126, 28, 159, 0, 167, 6, 219, 32, 215, 216, 240, 151, 197, 172, 26,
       5, 0, 0, 0, 0, 0, 0, 0,
       0, 1, 2, 3, 4,
       1, 0, 0, 0, 0, 0, 0, 0,
       1,
       5, 0, 0, 0, 0, 0, 0, 0,
       5, 6, 7, 8, 9] := by
  decide

/-- C1 counterexample: on the weighted Snowball (k=5, alpha=4, beta=3)
the rounds {R:4}, {R:4}, {B:4}, {B:4} all hit quorum; after them the
per-value counters of R and B are tied at 2, the most recent quorum
winner is B (its counter was bumped by the final round, whose favorite
was B and whose quorum test passed), yet `value` remains R: ties are NOT
broken towards the most-recent quorum winner. -/
theorem c1_counterexample :
    wticks (Snowball.new Color 5 4 3)
        [[(Color.R, 4)], [(Color.R, 4)], [(Color.B, 4)], [(Color.B, 4)]] =
      some { value := some Color.R, done := false, counter := 1,
             counters := [(Color.R, 2), (Color.B, 2)],
             sample_size := 5, quorum_size := 4, decision_threshold := 3 } ∧
    wticks (Snowball.new Color 5 4 3)
        [[(Color.R, 4)], [(Color.R, 4)], [(Color.B, 4)]] =
      some { value := some Color.R, done := false, counter := 1,
             counters := [(Color.R, 2), (Color.B, 1)],
             sample_size := 5, quorum_size := 4, decision_threshold := 3 } ∧
    (favoriteOf Color [(Color.B, 4)]).1 = some Color.B ∧
    ((4 : ℚ) * 2 / max (([(Color.B, (4 : ℚ))].length : ℚ)) 2 ≤
      (favoriteOf Color [(Color.B, 4)]).2) := by
  with_unfolding_all decide


/-- C5 counterexample: a block byte string whose embedded transaction
carries the stored id `[99]`, different from the id recomputed from its
`(sender, nonce)` fields, is decoded successfully by `Block::deserialize`
instead of being rejected with a corrupted-record error: decode performs
no id comparison at all. -/
theorem c5_counterexample :
    Block.deserialize
        ([1, 0, 0, 0, 0, 0, 0, 0] ++
         [1, 0, 0, 0, 0, 0, 0, 0, 99] ++
         [5, 0, 0, 0, 0, 0, 0, 0, 0, 1, 2, 3, 4] ++
         [1, 0, 0, 0, 0, 0, 0, 0] ++
         [0]) =
      some (Block.new [{ id := [99], sender := [0, 1, 2, 3, 4], nonce := 1 }] none) ∧
    ({ id := [99], sender := [0, 1, 2, 3, 4], nonce := 1 } : Transaction).id ≠
      Transaction.generate_id [0, 1, 2, 3, 4] 1 := by
  decide

/-- C6 counterexample: feeding an empty vote set to a not-yet-done
Snowball is not rejected and does not leave the state unchanged. On the
weighted variant an empty map is treated as a failed round: the tick
succeeds and silently resets `counter` from 1 to 0. On the multiset
variant the empty vote vector aborts the process (`unwrap` of a missing
first element) instead of returning a domain error. -/
theorem c6_counterexample :
    Snowball.tick
        { value := some Color.R, done := false, counter := 1,
          counters := [(Color.R, 1)], sample_size := 5, quorum_size := 4,
          decision_threshold := 3 }
        ([] : List (Color × ℚ)) =
      some { value := some Color.R, done := false, counter := 0,
             counters := [(Color.R, 1)], sample_size := 5, quorum_size := 4,
             decision_threshold := 3 } ∧
    ({ value := some Color.R, done := false, counter := 0,
       counters := [(Color.R, 1)], sample_size := 5, quorum_size := 4,
       decision_threshold := 3 } : Snowball Color) ≠
      { value := some Color.R, done := false, counter := 1,
        counters := [(Color.R, 1)], sample_size := 5, quorum_size := 4,
        decision_threshold := 3 } ∧
    MSnowball.tick (MSnowball.new Color 5 4 3) ([] : List Color) = none := by
  with_unfolding_all decide

/-! ## C9 / C10: behaviour of `count_votes` -/

/-- On a vote vector whose elements are pairwise equal (or empty),
`count_votes` aborts: one of its two `unwrap`s fails. -/
theorem count_votes_none_of_all_eq {T : Type} [DecidableEq T] (votes : List T)
    (hall : ∀ a ∈ votes, ∀ b ∈ votes, a = b) :
    MSnowball.count_votes votes = none := by
  cases votes with
  | nil => simp [MSnowball.count_votes]
  | cons x xs =>
    have hfind : (x :: xs).find? (fun v => v != x) = none := by
      apply List.find?_eq_none.mpr
      intro v hv
      have hvx : v = x := hall v hv x (List.mem_cons_self x xs)
      simp [hvx]
    simp [MSnowball.count_votes, hfind]

/-- When `count_votes` returns, the vote vector held two distinct values. -/
theorem count_votes_some_distinct {T : Type} [DecidableEq T] {votes : List T}
    {m : List (Nat × T)} (h : MSnowball.count_votes votes = some m) :
    ∃ a ∈ votes, ∃ b ∈ votes, a ≠ b := by
  cases votes with
  | nil => simp [MSnowball.count_votes] at h
  | cons x xs =>
    simp only [MSnowball.count_votes, List.head?_cons] at h
    cases hf : (x :: xs).find? (fun v => v != x) with
    | none => rw [hf] at h; simp at h
    | some vb =>
      have hmem : vb ∈ x :: xs := List.mem_of_find?_eq_some hf
      have hne := List.find?_some hf
      exact ⟨x, List.mem_cons_self x xs, vb, hmem, fun hEq => by simp [hEq] at hne⟩

/-- C9: on a not-yet-done multiset Snowball, `tick` has a defined result
only when the votes contain at least two distinct values; on an empty or
unanimous vote vector the `unwrap` inside `count_votes` aborts the
process (embedded as `none`) instead of returning a value or an error. -/
theorem c9_tick_needs_two_distinct {T : Type} [DecidableEq T] (sb : MSnowball T)
    (votes : List T) (hnd : sb.is_done = false) :
    ((∀ a ∈ votes, ∀ b ∈ votes, a = b) → MSnowball.tick sb votes = none) ∧
    ((MSnowball.tick sb votes).isSome = true → ∃ a ∈ votes, ∃ b ∈ votes, a ≠ b) := by
  constructor
  · intro hall
    simp [MSnowball.tick, hnd, count_votes_none_of_all_eq votes hall]
  · intro hsome
    cases hcv : MSnowball.count_votes votes with
    | none => simp [MSnowball.tick, hnd, hcv] at hsome
    | some m => exact count_votes_some_distinct hcv

/-- Witness for C9: the unanimous round [R,R,R,R,R] on a fresh instance
aborts. -/
theorem c9_witness :
    MSnowball.tick (MSnowball.new Color 5 4 3)
      [Color.R, Color.R, Color.R, Color.R, Color.R] = none :=
  (c9_tick_needs_two_distinct (MSnowball.new Color 5 4 3)
    [Color.R, Color.R, Color.R, Color.R, Color.R] rfl).1 (by decide)

/-- Two distinct values occupy disjoint positions of a list. -/
theorem count_two_le {T : Type} [DecidableEq T] (l : List T) (a b : T) (hab : a ≠ b) :
    l.count a + l.count b ≤ l.length := by
  induction l with
  | nil => simp
  | cons x xs ih =>
    simp only [List.count_cons, List.length_cons, beq_iff_eq]
    split_ifs with h1 h2 h2
    · exact absurd (h1.symm.trans h2) hab
    all_goals omega

/-- Three pairwise distinct values, the third present in the list: the
first two leave at least one position uncounted. -/
theorem count_two_add_lt {T : Type} [DecidableEq T] (l : List T) (a b c : T)
    (hab : a ≠ b) (hca : c ≠ a) (hcb : c ≠ b) (hc : c ∈ l) :
    l.count a + l.count b < l.length := by
  induction l with
  | nil => simp at hc
  | cons x xs ih =>
    simp only [List.count_cons, List.length_cons, beq_iff_eq]
    rcases List.mem_cons.mp hc with hx | hx
    · have hna : ¬x = a := fun h => hca (hx.trans h)
      have hnb : ¬x = b := fun h => hcb (hx.trans h)
      have := count_two_le xs a b hab
      rw [if_neg hna, if_neg hnb]
      omega
    · have := ih hx
      split_ifs with h1 h2 h2
      · exact absurd (h1.symm.trans h2) hab
      all_goals omega

/-- C10: `count_votes` credits the first value with its actual number of
occurrences but credits the first differing value with every remaining
vote (`len - count(first)`); when a third distinct value occurs, the
reported count of the second value strictly exceeds its actual number of
occurrences. -/
theorem c10_count_votes_misattribution {T : Type} [DecidableEq T] (votes : List T)
    (m : List (Nat × T)) (va vb : T)
    (hcv : MSnowball.count_votes votes = some m)
    (hhead : votes.head? = some va)
    (hfind : votes.find? (fun v => v != va) = some vb) :
    (m = if votes.length - votes.count va = votes.count va
         then [(votes.count va, vb)]
         else [(votes.count va, va), (votes.length - votes.count va, vb)]) ∧
    (∀ c ∈ votes, c ≠ va → c ≠ vb → votes.count vb < votes.length - votes.count va) := by
  have hvbne : vb ≠ va := by
    have := List.find?_some hfind
    intro hEq
    simp [hEq] at this
  cases votes with
  | nil => simp at hhead
  | cons x xs =>
    simp only [List.head?_cons, Option.some.injEq] at hhead
    subst hhead
    constructor
    · simp only [MSnowball.count_votes, List.head?_cons, hfind] at hcv
      split at hcv
      · simp at hcv
      · split at hcv
        next hcb => rw [if_pos hcb]; exact (Option.some_inj.mp hcv).symm
        next hcb => rw [if_neg hcb]; exact (Option.some_inj.mp hcv).symm
    · intro c hc hcva hcvb
      have hlt := count_two_add_lt (x :: xs) x vb c
        (fun h => hvbne h.symm) hcva hcvb hc
      have hle := List.count_le_length x (x :: xs)
      omega

/-- Witness for C10: in the round [B,R,X,X,X] the value R occurs once but
is credited with four votes, reaching the alpha = 4 quorum: the fresh
multiset instance adopts R as its value. -/
theorem c10_witness :
    ([Color.B, Color.R, Color.X, Color.X, Color.X].count Color.R <
      [Color.B, Color.R, Color.X, Color.X, Color.X].length -
        [Color.B, Color.R, Color.X, Color.X, Color.X].count Color.B) ∧
    MSnowball.tick (MSnowball.new Color 5 4 3)
        [Color.B, Color.R, Color.X, Color.X, Color.X] =
      some { value := some Color.R, is_done := false, successes := 1,
             sample_size := 5, quorum_size := 4, decision_threshold := 3 } :=
  ⟨(c10_count_votes_misattribution
      [Color.B, Color.R, Color.X, Color.X, Color.X]
      [(1, Color.B), (4, Color.R)] Color.B Color.R
      (by decide) (by decide) (by decide)).2
      Color.X (by decide) (by decide) (by decide),
   by decide⟩

/-! ## C7: mempool ordering -/

/-- The `BTreeMap` representation invariant: entries strictly ascending in
byte-lexicographic key order. -/
def MempoolWF (m : Mempool) : Prop :=
  m.entries.Pairwise (fun a b => bytesLt a.1 b.1 = true)

/-- `bytesLt` is irreflexive. -/
theorem bytesLt_irrefl : ∀ (a : List Nat), bytesLt a a = false := by
  intro a
  induction a with
  | nil => rfl
  | cons x xs ih => simp [bytesLt, ih]

/-- `bytesLt` is transitive. -/
theorem bytesLt_trans : ∀ (a b c : List Nat),
    bytesLt a b = true → bytesLt b c = true → bytesLt a c = true := by
  intro a
  induction a with
  | nil =>
    intro b c hab hbc
    cases c with
    | nil =>
      cases b with
      | nil => simp [bytesLt] at hab
      | cons y ys => simp [bytesLt] at hbc
    | cons z zs => simp [bytesLt]
  | cons x xs ih =>
    intro b c hab hbc
    cases b with
    | nil => simp [bytesLt] at hab
    | cons y ys =>
      cases c with
      | nil => simp [bytesLt] at hbc
      | cons z zs =>
        simp only [bytesLt, Bool.or_eq_true, Bool.and_eq_true, beq_iff_eq,
          decide_eq_true_eq] at hab hbc ⊢
        rcases hab with h1 | ⟨h1, h1t⟩ <;> rcases hbc with h2 | ⟨h2, h2t⟩
        · exact Or.inl (h1.trans h2)
        · exact Or.inl (h2 ▸ h1)
        · exact Or.inl (h1 ▸ h2)
        · exact Or.inr ⟨h1.trans h2, ih ys zs h1t h2t⟩

/-- `bytesLt` is trichotomous. -/
theorem bytesLt_trichotomy : ∀ (a b : List Nat),
    bytesLt a b = true ∨ a = b ∨ bytesLt b a = true := by
  intro a
  induction a with
  | nil =>
    intro b
    cases b with
    | nil => exact Or.inr (Or.inl rfl)
    | cons y ys => exact Or.inl (by simp [bytesLt])
  | cons x xs ih =>
    intro b
    cases b with
    | nil => exact Or.inr (Or.inr (by simp [bytesLt]))
    | cons y ys =>
      rcases Nat.lt_trichotomy x y with h | h | h
      · exact Or.inl (by simp [bytesLt, h])
      · subst h
        rcases ih ys with h2 | h2 | h2
        · exact Or.inl (by simp [bytesLt, h2])
        · exact Or.inr (Or.inl (by rw [h2]))
        · exact Or.inr (Or.inr (by simp [bytesLt, h2]))
      · exact Or.inr (Or.inr (by simp [bytesLt, h]))

/-- Everything in an inserted list is the new pair or an old entry. -/
theorem insertEntry_subset (l : List (List Nat × Transaction)) (k : List Nat)
    (tx : Transaction) : ∀ e ∈ Mempool.insertEntry l k tx, e = (k, tx) ∨ e ∈ l := by
  induction l with
  | nil => intro e he; simp [Mempool.insertEntry] at he; exact Or.inl he
  | cons hd tl ih =>
    obtain ⟨k2, tx2⟩ := hd
    intro e he
    simp only [Mempool.insertEntry] at he
    by_cases h1 : bytesLt k k2 = true
    · rw [if_pos h1] at he
      rcases List.mem_cons.mp he with h | h
      · exact Or.inl h
      · exact Or.inr h
    · rw [if_neg h1] at he
      by_cases h2 : k = k2
      · rw [if_pos h2] at he
        rcases List.mem_cons.mp he with h | h
        · exact Or.inl h
        · exact Or.inr (List.mem_cons_of_mem _ h)
      · rw [if_neg h2] at he
        rcases List.mem_cons.mp he with h | h
        · exact Or.inr (h ▸ List.mem_cons_self _ _)
        · rcases ih e h with h3 | h3
          · exact Or.inl h3
          · exact Or.inr (List.mem_cons_of_mem _ h3)

/-- Ordered insert preserves the sortedness invariant. -/
theorem insertEntry_pairwise (l : List (List Nat × Transaction)) (k : List Nat)
    (tx : Transaction) (h : l.Pairwise (fun a b => bytesLt a.1 b.1 = true)) :
    (Mempool.insertEntry l k tx).Pairwise (fun a b => bytesLt a.1 b.1 = true) := by
  induction l with
  | nil => simp [Mempool.insertEntry]
  | cons hd tl ih =>
    obtain ⟨k2, tx2⟩ := hd
    rcases List.pairwise_cons.mp h with ⟨hhd, htl⟩
    simp only [Mempool.insertEntry]
    by_cases h1 : bytesLt k k2 = true
    · rw [if_pos h1]
      refine List.pairwise_cons.mpr ⟨?_, h⟩
      intro e he
      rcases List.mem_cons.mp he with rfl | he2
      · exact h1
      · exact bytesLt_trans k k2 e.1 h1 (hhd e he2)
    · rw [if_neg h1]
      by_cases h2 : k = k2
      · rw [if_pos h2]
        refine List.pairwise_cons.mpr ⟨?_, htl⟩
        intro e he
        rw [h2]
        exact hhd e he
      · rw [if_neg h2]
        refine List.pairwise_cons.mpr ⟨?_, ih htl⟩
        intro e he
        rcases insertEntry_subset tl k tx e he with rfl | he2
        · rcases bytesLt_trichotomy k k2 with h3 | h3 | h3
          · exact absurd h3 h1
          · exact absurd h3 h2
          · exact h3
        · exact hhd e he2

/-- `remove` only drops an entry. -/
theorem removeEntry_sublist (l : List (List Nat × Transaction)) (k : List Nat) :
    (Mempool.removeEntry l k).Sublist l := by
  induction l with
  | nil => simp [Mempool.removeEntry]
  | cons hd tl ih =>
    obtain ⟨k2, tx2⟩ := hd
    simp only [Mempool.removeEntry]
    by_cases h : k = k2
    · rw [if_pos h]
      exact List.sublist_cons_self _ _
    · rw [if_neg h]
      exact ih.cons₂ _

/-- `remove_transactions` preserves the sortedness invariant. -/
theorem remove_transactions_wf (ks : List (List Nat)) (m : Mempool)
    (h : MempoolWF m) : MempoolWF (m.remove_transactions ks).1 := by
  suffices h2 : ∀ acc : Mempool × Nat, MempoolWF acc.1 →
      MempoolWF (ks.foldl (fun acc k =>
        match Mempool.lookupEntry acc.1.entries k with
        | some _ => (⟨Mempool.removeEntry acc.1.entries k⟩, acc.2 + 1)
        | none => (acc.1, acc.2)) acc).1 by
    exact h2 (m, 0) h
  induction ks with
  | nil => intro acc hacc; simpa using hacc
  | cons k ks ih =>
    intro acc hacc
    simp only [List.foldl_cons]
    apply ih
    cases hl : Mempool.lookupEntry acc.1.entries k with
    | none => simpa [hl] using hacc
    | some tx =>
      simp only [hl]
      exact List.Pairwise.sublist (removeEntry_sublist acc.1.entries k) hacc

/-- C7: `get_all_transactions` returns `none` exactly on the empty
mempool, and otherwise all stored transactions in ascending
byte-lexicographic order of their index keys; the sortedness invariant is
maintained by `insert` and `remove_transactions`, so it holds for every
mempool built through the public operations. -/
theorem c7_get_all_transactions (m : Mempool) (hwf : MempoolWF m) :
    (m.get_all_transactions = none ↔ m.entries = []) ∧
    (∀ l, m.get_all_transactions = some l →
      l = m.entries.map Prod.snd ∧
      (m.entries.map Prod.fst).Pairwise (fun a b => bytesLt a b = true)) ∧
    (∀ k tx, MempoolWF (m.insert k tx)) ∧
    (∀ ks, MempoolWF (m.remove_transactions ks).1) := by
  refine ⟨?_, ?_, ?_, ?_⟩
  · constructor
    · intro h
      by_cases he : m.entries = []
      · exact he
      · exact absurd h (by simp [Mempool.get_all_transactions, Mempool.len, he])
    · intro h
      simp [Mempool.get_all_transactions, Mempool.len, h]
  · intro l h
    by_cases he : m.entries = []
    · simp [Mempool.get_all_transactions, Mempool.len, he] at h
    · refine ⟨?_, ?_⟩
      · simp only [Mempool.get_all_transactions, Mempool.len, ne_eq,
          List.length_eq_zero, he, not_false_iff, if_true] at h
        exact (Option.some_inj.mp h).symm
      · exact List.pairwise_map.mpr hwf
  · intro k tx
    exact insertEntry_pairwise m.entries k tx hwf
  · intro ks
    exact remove_transactions_wf ks m hwf

/-- Witness for C7: a two-entry mempool, inserted in descending key
order; `get_all_transactions` reports the entries back in ascending key
order, not insertion order. -/
theorem c7_witness :
    ((Mempool.insert (Mempool.insert ⟨[]⟩ [5] ⟨[1], [1], 1⟩) [3] ⟨[2], [2], 2⟩).get_all_transactions = none ↔
      (Mempool.insert (Mempool.insert ⟨[]⟩ [5] ⟨[1], [1], 1⟩) [3] ⟨[2], [2], 2⟩).entries = []) ∧
    (Mempool.insert (Mempool.insert ⟨[]⟩ [5] ⟨[1], [1], 1⟩) [3] ⟨[2], [2], 2⟩).get_all_transactions =
      some [⟨[2], [2], 2⟩, ⟨[1], [1], 1⟩] := by
  constructor
  · exact (c7_get_all_transactions _ (by unfold MempoolWF; decide)).1
  · decide

/-! ## C3: chains built through `Chain::append` -/

/-- The chains reachable through `Chain::new` and `Chain::append`. -/
inductive BuiltByAppend : List Block → Prop where
  | nil : BuiltByAppend []
  | app (c : List Block) (b : Block) : BuiltByAppend c → BuiltByAppend (Chain.append c b).1

/-- Every chain built by `append` has a `None`-predecessor first block,
consecutive predecessor links, and content-derived block ids. -/
theorem built_invariant (c : List Block) (hc : BuiltByAppend c) :
    (∀ b0, c.head? = some b0 → b0.prev_block_id = none) ∧
    c.Chain' (fun b1 b2 => b2.prev_block_id = some b1.id) ∧
    (∀ blk ∈ c, blk.id = Block.generate_id blk.transactions blk.prev_block_id) := by
  induction hc with
  | nil => exact ⟨by simp, by simp, by simp⟩
  | app c b hc ih =>
    obtain ⟨ih1, ih2, ih3⟩ := ih
    have happ : (Chain.append c b).1 =
        c ++ [b.set_previous_block_id (c.getLast?.map Block.id)] := rfl
    rw [happ]
    refine ⟨?_, ?_, ?_⟩
    · intro b0 hb0
      cases c with
      | nil =>
        simp only [List.nil_append, List.head?_cons, Option.some.injEq] at hb0
        rw [← hb0]
        simp [Block.set_previous_block_id]
      | cons x xs =>
        simp only [List.cons_append, List.head?_cons, Option.some.injEq] at hb0
        exact hb0 ▸ ih1 x rfl
    · refine List.chain'_append.mpr ⟨ih2, List.chain'_singleton _, ?_⟩
      intro x hx y hy
      simp only [List.head?_cons, Option.mem_def, Option.some.injEq] at hy
      rw [← hy]
      simp only [Option.mem_def] at hx
      simp [Block.set_previous_block_id, hx]
    · intro blk hblk
      rcases List.mem_append.mp hblk with h | h
      · exact ih3 blk h
      · simp only [List.mem_singleton] at h
        rw [h]
        rfl

/-- C3: `append` overwrites the incoming block's predecessor with the
current tip id (re-deriving the block id) and returns the position of the
just-appended block (the old length); consequently, in any chain built
solely through `append`, the first block has no predecessor and every
later block points at the id of the block before it. -/
theorem c3_chain_append (c : List Block) (hc : BuiltByAppend c) :
    (∀ b : Block, (Chain.append c b).2 = c.length) ∧
    (∀ b : Block, (Chain.append c b).1 =
      c ++ [b.set_previous_block_id (c.getLast?.map Block.id)]) ∧
    (∀ h0 : 0 < c.length, (c.get ⟨0, h0⟩).prev_block_id = none) ∧
    (∀ (i : Nat) (hi : i + 1 < c.length),
      (c.get ⟨i + 1, hi⟩).prev_block_id =
        some ((c.get ⟨i, Nat.lt_of_succ_lt hi⟩).id)) ∧
    (∀ blk ∈ c, blk.id = Block.generate_id blk.transactions blk.prev_block_id) := by
  obtain ⟨h1, h2, h3⟩ := built_invariant c hc
  refine ⟨?_, fun b => rfl, ?_, ?_, h3⟩
  · intro b
    simp [Chain.append]
  · intro h0
    cases c with
    | nil => simp at h0
    | cons x xs => exact h1 x rfl
  · intro i hi
    have := List.chain'_iff_get.mp h2 i (by omega)
    exact this

/-- A concrete one-block chain built through `append`. -/
def c3chain : List Block := (Chain.append [] (Block.new [] none)).1

/-- Witness for C3 on a concrete one-block chain: the next `append`
returns position 1 = length, and the first block carries no
predecessor. -/
theorem c3_witness :
    (Chain.append c3chain (Block.new [] (some [7]))).2 = c3chain.length ∧
    (c3chain.get ⟨0, by decide⟩).prev_block_id = none := by
  have h := c3_chain_append c3chain
    (BuiltByAppend.app [] (Block.new [] none) BuiltByAppend.nil)
  exact ⟨h.1 (Block.new [] (some [7])), h.2.2.1 (by decide)⟩

/-! ## C4: `Node::finalize_block` -/

/-- A present key is found after `insert` of that key. -/
theorem lookupEntry_insertEntry_self (l : List (List Nat × Transaction))
    (k : List Nat) (tx : Transaction) :
    Mempool.lookupEntry (Mempool.insertEntry l k tx) k = some tx := by
  induction l with
  | nil => simp [Mempool.insertEntry, Mempool.lookupEntry]
  | cons hd tl ih =>
    obtain ⟨k2, tx2⟩ := hd
    simp only [Mempool.insertEntry]
    by_cases h1 : bytesLt k k2 = true
    · rw [if_pos h1]; simp [Mempool.lookupEntry]
    · rw [if_neg h1]
      by_cases h2 : k = k2
      · rw [if_pos h2]; simp [Mempool.lookupEntry]
      · rw [if_neg h2]
        simp only [Mempool.lookupEntry]
        rw [if_neg h2]
        exact ih

/-- `insert` leaves other keys untouched. -/
theorem lookupEntry_insertEntry_other (l : List (List Nat × Transaction))
    (k : List Nat) (tx : Transaction) (k3 : List Nat) (h : k3 ≠ k) :
    Mempool.lookupEntry (Mempool.insertEntry l k tx) k3 =
      Mempool.lookupEntry l k3 := by
  induction l with
  | nil => simp [Mempool.insertEntry, Mempool.lookupEntry, h]
  | cons hd tl ih =>
    obtain ⟨k2, tx2⟩ := hd
    simp only [Mempool.insertEntry]
    by_cases h1 : bytesLt k k2 = true
    · rw [if_pos h1]
      simp only [Mempool.lookupEntry]
      rw [if_neg h]
    · rw [if_neg h1]
      by_cases h2 : k = k2
      · rw [if_pos h2]
        simp only [Mempool.lookupEntry]
        rw [if_neg h, if_neg (fun hx => h (hx.trans h2.symm))]
      · rw [if_neg h2]
        simp only [Mempool.lookupEntry]
        by_cases h3 : k3 = k2
        · rw [if_pos h3, if_pos h3]
        · rw [if_neg h3, if_neg h3]
          exact ih

/-- An absent key means no entry carries it. -/
theorem lookupEntry_eq_none (l : List (List Nat × Transaction)) (k : List Nat) :
    Mempool.lookupEntry l k = none ↔ ∀ e ∈ l, e.1 ≠ k := by
  induction l with
  | nil => simp [Mempool.lookupEntry]
  | cons hd tl ih =>
    obtain ⟨k2, tx2⟩ := hd
    simp only [Mempool.lookupEntry]
    by_cases h : k = k2
    · rw [if_pos h]
      constructor
      · intro hx; exact absurd hx (by simp)
      · intro hall; exact absurd h.symm (hall (k2, tx2) (List.mem_cons_self _ _))
    · rw [if_neg h]
      rw [ih]
      constructor
      · intro hall e he
        rcases List.mem_cons.mp he with rfl | he2
        · exact fun hEq => h hEq.symm
        · exact hall e he2
      · intro hall e he
        exact hall e (List.mem_cons_of_mem _ he)

/-- With strictly sorted (hence distinct) keys, `remove` drops exactly
the entries carrying the removed key. -/
theorem removeEntry_mem (l : List (List Nat × Transaction)) (k : List Nat)
    (hdis : l.Pairwise (fun a b => bytesLt a.1 b.1 = true))
    (e : List Nat × Transaction) :
    e ∈ Mempool.removeEntry l k ↔ e ∈ l ∧ e.1 ≠ k := by
  induction l with
  | nil => simp [Mempool.removeEntry]
  | cons hd tl ih =>
    obtain ⟨k2, tx2⟩ := hd
    rcases List.pairwise_cons.mp hdis with ⟨hhd, htl⟩
    simp only [Mempool.removeEntry]
    by_cases h : k = k2
    · rw [if_pos h]
      constructor
      · intro he
        refine ⟨List.mem_cons_of_mem _ he, fun hEq => ?_⟩
        have hlt := hhd e he
        rw [hEq, h] at hlt
        rw [bytesLt_irrefl] at hlt
        exact Bool.false_ne_true hlt
      · rintro ⟨he, hne⟩
        rcases List.mem_cons.mp he with rfl | he2
        · exact absurd h.symm hne
        · exact he2
    · rw [if_neg h]
      constructor
      · intro he
        rcases List.mem_cons.mp he with rfl | he2
        · exact ⟨List.mem_cons_self _ _, fun hEq => h hEq.symm⟩
        · rcases (ih htl).mp he2 with ⟨hm, hne⟩
          exact ⟨List.mem_cons_of_mem _ hm, hne⟩
      · rintro ⟨he, hne⟩
        rcases List.mem_cons.mp he with rfl | he2
        · exact List.mem_cons_self _ _
        · exact List.mem_cons_of_mem _ ((ih htl).mpr ⟨he2, hne⟩)

/-- `remove_transactions` removes exactly the listed indexes. -/
theorem remove_transactions_mem (ks : List (List Nat)) (m : Mempool)
    (hwf : MempoolWF m) (e : List Nat × Transaction) :
    e ∈ ((m.remove_transactions ks).1).entries ↔
      e ∈ m.entries ∧ e.1 ∉ ks := by
  suffices h2 : ∀ acc : Mempool × Nat, MempoolWF acc.1 →
      (e ∈ ((ks.foldl (fun acc k =>
        match Mempool.lookupEntry acc.1.entries k with
        | some _ => (⟨Mempool.removeEntry acc.1.entries k⟩, acc.2 + 1)
        | none => (acc.1, acc.2)) acc).1).entries ↔
        e ∈ acc.1.entries ∧ e.1 ∉ ks) by
    exact h2 (m, 0) hwf
  induction ks with
  | nil =>
    intro acc hacc
    simp
  | cons k ks ih =>
    intro acc hacc
    simp only [List.foldl_cons]
    cases hl : Mempool.lookupEntry acc.1.entries k with
    | none =>
      simp only [hl]
      rw [ih _ hacc]
      have hk := (lookupEntry_eq_none _ _).mp hl
      constructor
      · rintro ⟨hm, hins⟩
        refine ⟨hm, fun hx => ?_⟩
        rcases List.mem_cons.mp hx with h1 | h1
        · exact hk e hm h1
        · exact hins h1
      · rintro ⟨hm, hins⟩
        exact ⟨hm, fun hx => hins (List.mem_cons_of_mem _ hx)⟩
    | some tx =>
      simp only [hl]
      have hwf2 : MempoolWF (⟨Mempool.removeEntry acc.1.entries k⟩ : Mempool) :=
        List.Pairwise.sublist (removeEntry_sublist _ _) hacc
      rw [ih _ hwf2]
      have hrm := removeEntry_mem acc.1.entries k hacc e
      constructor
      · rintro ⟨hm, hins⟩
        rcases hrm.mp hm with ⟨hm2, hne⟩
        refine ⟨hm2, fun hx => ?_⟩
        rcases List.mem_cons.mp hx with h1 | h1
        · exact hne h1
        · exact hins h1
      · rintro ⟨hm, hins⟩
        have hne : e.1 ≠ k := fun hEq => hins (hEq ▸ List.mem_cons_self _ _)
        exact ⟨hrm.mpr ⟨hm, hne⟩, fun hx => hins (List.mem_cons_of_mem _ hx)⟩

/-- Entries after the rebuild fold all come from the inserted
transactions (or the accumulator), keyed by the key function. -/
theorem foldl_insert_mem (f : Transaction → List Nat) (txs : List Transaction) :
    ∀ (acc : Mempool) (e : List Nat × Transaction),
      e ∈ (txs.foldl (fun a t => a.insert (f t) t) acc).entries →
      (e.1 = f e.2 ∧ e.2 ∈ txs) ∨ e ∈ acc.entries := by
  induction txs with
  | nil => intro acc e he; exact Or.inr he
  | cons t ts ih =>
    intro acc e he
    simp only [List.foldl_cons] at he
    rcases ih _ e he with ⟨h1, h2⟩ | h
    · exact Or.inl ⟨h1, List.mem_cons_of_mem _ h2⟩
    · rcases insertEntry_subset acc.entries (f t) t e h with rfl | h2
      · exact Or.inl ⟨rfl, List.mem_cons_self _ _⟩
      · exact Or.inr h2

/-- A key present before the rebuild fold is still present after it. -/
theorem foldl_insert_present (f : Transaction → List Nat) (txs : List Transaction) :
    ∀ (acc : Mempool) (k : List Nat),
      (Mempool.lookupEntry acc.entries k).isSome = true →
      (Mempool.lookupEntry
        ((txs.foldl (fun a t => a.insert (f t) t) acc)).entries k).isSome = true := by
  induction txs with
  | nil => intro acc k h; exact h
  | cons t ts ih =>
    intro acc k h
    simp only [List.foldl_cons]
    apply ih
    by_cases hk : k = f t
    · show (Mempool.lookupEntry (Mempool.insertEntry acc.entries (f t) t) k).isSome = true
      rw [hk, lookupEntry_insertEntry_self]
      rfl
    · show (Mempool.lookupEntry (Mempool.insertEntry acc.entries (f t) t) k).isSome = true
      rw [lookupEntry_insertEntry_other acc.entries (f t) t k hk]
      exact h

/-- Every inserted transaction is found under its key after the fold. -/
theorem foldl_insert_lookup (f : Transaction → List Nat) (txs : List Transaction) :
    ∀ (acc : Mempool) (tx : Transaction), tx ∈ txs →
      (Mempool.lookupEntry
        ((txs.foldl (fun a t => a.insert (f t) t) acc)).entries (f tx)).isSome = true := by
  induction txs with
  | nil => intro acc tx h; simp at h
  | cons t ts ih =>
    intro acc tx h
    rcases List.mem_cons.mp h with rfl | h2
    · simp only [List.foldl_cons]
      apply foldl_insert_present
      show (Mempool.lookupEntry (Mempool.insertEntry acc.entries (f tx) tx) (f tx)).isSome = true
      rw [lookupEntry_insertEntry_self]
      rfl
    · simp only [List.foldl_cons]
      exact ih _ tx h2

/-- C4: `finalize_block` (1) computes the indexes of the block's
transactions against the old tip, (2) appends the block through
`Chain::append` (rebinding its predecessor to the old tip), (3) removes
exactly the computed indexes from the mempool, and (4) re-keys every
surviving transaction under its index against the new tip, so every
mempool key afterwards is the index of its transaction relative to the
new tip. -/
theorem c4_finalize_block (n : Node) (b : Block) :
    ((n.finalize_block b).chain = (Chain.append n.chain b).1) ∧
    ((n.finalize_block b).nonce = n.nonce) ∧
    (MempoolWF n.mempool → ∀ e : List Nat × Transaction,
      e ∈ ((n.mempool.remove_transactions
          (b.transactions.map (Node.generate_transaction_index n.chain))).1).entries ↔
        e ∈ n.mempool.entries ∧
          e.1 ∉ b.transactions.map (Node.generate_transaction_index n.chain)) ∧
    (∀ e ∈ (n.finalize_block b).mempool.entries,
      e.1 = Node.generate_transaction_index (n.finalize_block b).chain e.2 ∧
      e.2 ∈ ((n.mempool.remove_transactions
          (b.transactions.map (Node.generate_transaction_index n.chain))).1).entries.map
          Prod.snd) ∧
    (∀ tx ∈ ((n.mempool.remove_transactions
          (b.transactions.map (Node.generate_transaction_index n.chain))).1).entries.map
          Prod.snd,
      (Mempool.lookupEntry (n.finalize_block b).mempool.entries
        (Node.generate_transaction_index (n.finalize_block b).chain tx)).isSome = true) := by
  cases hg : ((n.mempool.remove_transactions
      (b.transactions.map (Node.generate_transaction_index n.chain))).1).get_all_transactions with
  | none =>
    have hfin : n.finalize_block b =
        { chain := (Chain.append n.chain b).1,
          mempool := (n.mempool.remove_transactions
            (b.transactions.map (Node.generate_transaction_index n.chain))).1,
          nonce := n.nonce } := by
      simp only [Node.finalize_block]
      rw [hg]
    have hempty : ((n.mempool.remove_transactions
        (b.transactions.map (Node.generate_transaction_index n.chain))).1).entries = [] := by
      by_contra hne
      simp [Mempool.get_all_transactions, Mempool.len, hne] at hg
    refine ⟨by rw [hfin], by rw [hfin], ?_, ?_, ?_⟩
    · intro hwf e
      exact remove_transactions_mem _ n.mempool hwf e
    · intro e he
      rw [hfin, hempty] at he
      simp at he
    · intro tx htx
      rw [hempty] at htx
      simp at htx
  | some txs =>
    have htxs : txs = ((n.mempool.remove_transactions
        (b.transactions.map (Node.generate_transaction_index n.chain))).1).entries.map
        Prod.snd := by
      by_cases hne : ((n.mempool.remove_transactions
          (b.transactions.map (Node.generate_transaction_index n.chain))).1).entries = []
      · simp [Mempool.get_all_transactions, Mempool.len, hne] at hg
      · simp only [Mempool.get_all_transactions, Mempool.len, ne_eq,
          List.length_eq_zero, hne, not_false_iff, if_true] at hg
        exact (Option.some_inj.mp hg).symm
    have hfin : n.finalize_block b =
        { chain := (Chain.append n.chain b).1,
          mempool := txs.foldl (fun acc tx =>
            acc.insert (Node.generate_transaction_index (Chain.append n.chain b).1 tx) tx)
            ⟨[]⟩,
          nonce := n.nonce } := by
      simp only [Node.finalize_block]
      rw [hg]
    refine ⟨by rw [hfin], by rw [hfin], ?_, ?_, ?_⟩
    · intro hwf e
      exact remove_transactions_mem _ n.mempool hwf e
    · intro e he
      rw [hfin] at he
      rcases foldl_insert_mem
          (Node.generate_transaction_index (Chain.append n.chain b).1) txs _ e he with
        ⟨h1, h2⟩ | h
      · rw [hfin]
        exact ⟨h1, htxs ▸ h2⟩
      · simp at h
    · intro tx htx
      rw [hfin]
      exact foldl_insert_lookup
        (Node.generate_transaction_index (Chain.append n.chain b).1) txs _ tx (htxs ▸ htx)

/-- A concrete pending transaction, node and block for the C4 witness. -/
def c4tx : Transaction := ⟨[1], [1], 1⟩

/-- A concrete node with one pending transaction and an empty chain. -/
def c4node : Node := ⟨[], ⟨[([1], c4tx)]⟩, 5⟩

/-- A concrete (empty) block to finalize. -/
def c4blk : Block := Block.new [] none

/-- Witness for C4 on a concrete node (one pending transaction, empty
chain) finalizing an empty block: the removal characterization holds at
the pending entry, and the surviving transaction is found under its
re-computed index against the new tip. -/
theorem c4_witness :
    (([1], c4tx) ∈
        ((c4node.mempool.remove_transactions
          (c4blk.transactions.map
            (Node.generate_transaction_index c4node.chain))).1).entries ↔
      ([1], c4tx) ∈ c4node.mempool.entries ∧
        ([1] : List Nat) ∉ c4blk.transactions.map
          (Node.generate_transaction_index c4node.chain)) ∧
    (Mempool.lookupEntry (c4node.finalize_block c4blk).mempool.entries
      (Node.generate_transaction_index (c4node.finalize_block c4blk).chain
        c4tx)).isSome = true := by
  have h := c4_finalize_block c4node c4blk
  constructor
  · exact h.2.2.1 (by unfold c4node MempoolWF; decide) ([1], c4tx)
  · exact h.2.2.2.2 c4tx (by decide)

/-! ## C1: the weighted Snowball preference invariant -/

/-- States reachable from a fresh weighted Snowball by successful ticks. -/
inductive SReachable {T : Type} [DecidableEq T] : Snowball T → Prop where
  | init (k a b : Nat) : SReachable (Snowball.new T k a b)
  | step (sb : Snowball T) (votes : List (T × ℚ)) (sb2 : Snowball T) :
      SReachable sb → Snowball.tick sb votes = some sb2 → SReachable sb2

/-- The argmax invariant: with no preference all counters are zero; with
a preference its counter dominates every counter. -/
def ArgmaxInv [DecidableEq T] (sb : Snowball T) : Prop :=
  (sb.value = none → ∀ v, counterVal sb.counters v = 0) ∧
  (∀ w, sb.value = some w → ∀ v, counterVal sb.counters v ≤ counterVal sb.counters w)

/-- Bumping a counter makes it present with its old value plus one. -/
theorem counterGet_bump_self [DecidableEq T] (cs : List (T × Nat)) (v : T) :
    counterGet (counterBump cs v) v = some (counterVal cs v + 1) := by
  induction cs with
  | nil => simp [counterBump, counterGet, counterVal]
  | cons hd tl ih =>
    obtain ⟨w, c⟩ := hd
    by_cases h : v = w
    · subst h
      simp [counterBump, counterGet, counterVal]
    · simp only [counterBump, counterGet, counterVal, if_neg h]
      rw [ih]
      simp [counterVal, counterGet, h]

/-- Bumping one counter leaves the others untouched. -/
theorem counterGet_bump_other [DecidableEq T] (cs : List (T × Nat)) (v u : T)
    (h : u ≠ v) : counterGet (counterBump cs v) u = counterGet cs u := by
  induction cs with
  | nil => simp [counterBump, counterGet, h]
  | cons hd tl ih =>
    obtain ⟨w, c⟩ := hd
    by_cases h2 : v = w
    · subst h2
      simp [counterBump, counterGet, h]
    · by_cases h3 : u = w
      · simp [counterBump, counterGet, h2, h3]
      · simp [counterBump, counterGet, h2, h3, ih]

/-- The preference computed inside the quorum branch of the weighted
`tick` (reading both counters after the bump). -/
def tickNewValue [DecidableEq T] (sb : Snowball T) (favorite : T) : Option T :=
  match sb.value with
  | none => some favorite
  | some v =>
    if optGt (counterGet (counterBump sb.counters favorite) favorite)
        (counterGet (counterBump sb.counters favorite) v) then some favorite
    else some v

/-- Evaluation of the weighted `tick` on a no-quorum round. -/
theorem tick_no_quorum [DecidableEq T] (sb : Snowball T) (votes : List (T × ℚ))
    (hd : sb.done = false)
    (hq : ¬ ((sb.quorum_size : ℚ) * 2 / max (votes.length : ℚ) 2 ≤
        (favoriteOf T votes).2)) :
    Snowball.tick sb votes = some { sb with counter := 0 } := by
  unfold Snowball.tick
  rw [hd]
  simp only [Bool.false_eq_true, if_false]
  rw [if_neg hq]
  simp

/-- Evaluation of the weighted `tick` on a quorum round with no favorite:
the `unwrap` aborts. -/
theorem tick_quorum_abort [DecidableEq T] (sb : Snowball T) (votes : List (T × ℚ))
    (hd : sb.done = false)
    (hq : (sb.quorum_size : ℚ) * 2 / max (votes.length : ℚ) 2 ≤ (favoriteOf T votes).2)
    (hf : (favoriteOf T votes).1 = none) :
    Snowball.tick sb votes = none := by
  unfold Snowball.tick
  rw [hd]
  simp only [Bool.false_eq_true, if_false]
  rw [if_pos hq, hf]

/-- Evaluation of the weighted `tick` on a quorum round with a favorite. -/
theorem tick_quorum [DecidableEq T] (sb : Snowball T) (votes : List (T × ℚ))
    (favorite : T) (hd : sb.done = false)
    (hq : (sb.quorum_size : ℚ) * 2 / max (votes.length : ℚ) 2 ≤ (favoriteOf T votes).2)
    (hf : (favoriteOf T votes).1 = some favorite) :
    Snowball.tick sb votes =
      some (if sb.decision_threshold <
              (if some favorite = sb.value then sb.counter + 1 else 1) then
              { sb with
                value := tickNewValue sb favorite,
                counters := counterBump sb.counters favorite,
                counter := if some favorite = sb.value then sb.counter + 1 else 1,
                done := true }
            else
              { sb with
                value := tickNewValue sb favorite,
                counters := counterBump sb.counters favorite,
                counter := if some favorite = sb.value then sb.counter + 1 else 1 }) := by
  unfold Snowball.tick
  rw [hd]
  simp only [Bool.false_eq_true, if_false]
  rw [if_pos hq, hf]
  rfl

/-- After a quorum bump, the updated preference dominates the updated
counters (and can never be `None`). -/
theorem argmax_after_bump [DecidableEq T] (sb : Snowball T) (favorite : T)
    (inv : ArgmaxInv sb) :
    (tickNewValue sb favorite = none →
      ∀ v, counterVal (counterBump sb.counters favorite) v = 0) ∧
    (∀ w, tickNewValue sb favorite = some w →
      ∀ v, counterVal (counterBump sb.counters favorite) v ≤
        counterVal (counterBump sb.counters favorite) w) := by
  have hbs : counterVal (counterBump sb.counters favorite) favorite =
      counterVal sb.counters favorite + 1 := by
    rw [counterVal, counterGet_bump_self]
    rfl
  have hbo : ∀ v, v ≠ favorite →
      counterVal (counterBump sb.counters favorite) v = counterVal sb.counters v := by
    intro v hv
    rw [counterVal, counterGet_bump_other _ _ _ hv]
    rfl
  constructor
  · intro hnone
    exfalso
    unfold tickNewValue at hnone
    cases hv : sb.value with
    | none =>
      rw [hv] at hnone
      exact Option.noConfusion hnone
    | some u =>
      rw [hv] at hnone
      have hnone2 : (if optGt (counterGet (counterBump sb.counters favorite) favorite)
          (counterGet (counterBump sb.counters favorite) u) = true then some favorite
        else some u) = none := hnone
      split at hnone2 <;> exact Option.noConfusion hnone2
  · intro w hw v
    unfold tickNewValue at hw
    cases hv : sb.value with
    | none =>
      rw [hv] at hw
      have hfw : favorite = w := Option.some_inj.mp hw
      subst hfw
      have hz := inv.1 hv
      by_cases hvf : v = favorite
      · subst hvf; exact le_rfl
      · rw [hbo v hvf, hz v]
        exact Nat.zero_le _
    | some u =>
      rw [hv] at hw
      have hw2 : (if optGt (counterGet (counterBump sb.counters favorite) favorite)
          (counterGet (counterBump sb.counters favorite) u) = true then some favorite
        else some u) = some w := hw
      have hmax := inv.2 u hv
      by_cases hgt : optGt (counterGet (counterBump sb.counters favorite) favorite)
          (counterGet (counterBump sb.counters favorite) u) = true
      · rw [if_pos hgt] at hw2
        have hfw : favorite = w := Option.some_inj.mp hw2
        subst hfw
        by_cases hvf : v = favorite
        · subst hvf; exact le_rfl
        · rw [hbo v hvf, hbs]
          by_cases huf : u = favorite
          · subst huf
            exact (hmax v).trans (Nat.le_succ _)
          · have hgu : counterGet (counterBump sb.counters favorite) u =
                counterGet sb.counters u := counterGet_bump_other _ _ _ huf
            rw [counterGet_bump_self, hgu] at hgt
            cases hgsu : counterGet sb.counters u with
            | none =>
              have hu0 : counterVal sb.counters u = 0 := by rw [counterVal, hgsu]; rfl
              have hv0 := (hmax v).trans hu0.le
              omega
            | some cu =>
              rw [hgsu] at hgt
              simp only [optGt, decide_eq_true_eq] at hgt
              have hcu : counterVal sb.counters u = cu := by rw [counterVal, hgsu]; rfl
              have hvu := hmax v
              omega
      · rw [if_neg hgt] at hw2
        have huw : u = w := Option.some_inj.mp hw2
        subst huw
        by_cases hvf : v = favorite
        · rw [hvf]
          by_cases huf : u = favorite
          · rw [huf]
          · have hgu : counterGet (counterBump sb.counters favorite) u =
                counterGet sb.counters u := counterGet_bump_other _ _ _ huf
            rw [counterGet_bump_self, hgu] at hgt
            cases hgsu : counterGet sb.counters u with
            | none =>
              rw [hgsu] at hgt
              simp [optGt] at hgt
            | some cu =>
              rw [hgsu] at hgt
              simp only [optGt, decide_eq_true_eq] at hgt
              have hcu : counterVal sb.counters u = cu := by rw [counterVal, hgsu]; rfl
              rw [hbs, hbo u huf]
              omega
        · rw [hbo v hvf]
          by_cases huf : u = favorite
          · rw [huf, hbs]
            have hvu := hmax v
            rw [huf] at hvu
            omega
          · rw [hbo u huf]
            exact hmax v

/-- The weighted `tick` preserves the argmax invariant. -/
theorem tick_argmax [DecidableEq T] (sb : Snowball T) (votes : List (T × ℚ))
    (sb2 : Snowball T) (h : Snowball.tick sb votes = some sb2)
    (inv : ArgmaxInv sb) : ArgmaxInv sb2 := by
  by_cases hd : sb.done = true
  · unfold Snowball.tick at h
    rw [if_pos hd] at h
    exact Option.some_inj.mp h ▸ inv
  · have hdf : sb.done = false := by simpa using hd
    by_cases hq : (sb.quorum_size : ℚ) * 2 / max (votes.length : ℚ) 2 ≤
        (favoriteOf T votes).2
    · cases hf : (favoriteOf T votes).1 with
      | none =>
        rw [tick_quorum_abort sb votes hdf hq hf] at h
        cases h
      | some favorite =>
        rw [tick_quorum sb votes favorite hdf hq hf] at h
        have h2 := Option.some_inj.mp h
        have core := argmax_after_bump sb favorite inv
        split at h2 <;> split at h2 <;> rw [← h2] <;> exact ⟨core.1, core.2⟩
    · rw [tick_no_quorum sb votes hdf hq] at h
      have h2 := Option.some_inj.mp h
      rw [← h2]
      exact ⟨inv.1, inv.2⟩

/-- Every reachable weighted Snowball state satisfies the argmax
invariant. -/
theorem sreachable_argmax [DecidableEq T] (sb : Snowball T)
    (h : SReachable sb) : ArgmaxInv sb := by
  induction h with
  | init k a b =>
    exact ⟨fun _ v => by simp [Snowball.new, counterVal, counterGet],
           fun w hw => by simp [Snowball.new] at hw⟩
  | step sb votes sb2 hreach htick ih => exact tick_argmax sb votes sb2 htick ih

/-- The weighted `tick` replaces the preference only on strict counter
dominance: whenever the preference changes, the new value's counter
strictly exceeds the old value's counter (so tied counters retain the
incumbent, not the most recent quorum winner). -/
theorem tick_value_change_strict [DecidableEq T] (sb : Snowball T)
    (votes : List (T × ℚ)) (sb2 : Snowball T) (w w2 : T)
    (h : Snowball.tick sb votes = some sb2) (hv : sb.value = some w)
    (hv2 : sb2.value = some w2) (hne : w2 ≠ w) :
    counterVal sb2.counters w < counterVal sb2.counters w2 := by
  by_cases hd : sb.done = true
  · unfold Snowball.tick at h
    rw [if_pos hd] at h
    have h2 := Option.some_inj.mp h
    rw [← h2] at hv2
    rw [hv] at hv2
    exact absurd (Option.some_inj.mp hv2).symm hne
  · have hdf : sb.done = false := by simpa using hd
    by_cases hq : (sb.quorum_size : ℚ) * 2 / max (votes.length : ℚ) 2 ≤
        (favoriteOf T votes).2
    · cases hf : (favoriteOf T votes).1 with
      | none =>
        rw [tick_quorum_abort sb votes hdf hq hf] at h
        cases h
      | some favorite =>
        rw [tick_quorum sb votes favorite hdf hq hf] at h
        have h2 := Option.some_inj.mp h
        have hval : sb2.value = tickNewValue sb favorite := by
          rw [← h2]
          split <;> first | rfl | (split <;> rfl)
        have hcnt : sb2.counters = counterBump sb.counters favorite := by
          rw [← h2]
          split <;> first | rfl | (split <;> rfl)
        rw [hcnt]
        rw [hval] at hv2
        unfold tickNewValue at hv2
        rw [hv] at hv2
        have hv2c : (if optGt (counterGet (counterBump sb.counters favorite) favorite)
            (counterGet (counterBump sb.counters favorite) w) = true then some favorite
          else some w) = some w2 := hv2
        by_cases hgt : optGt (counterGet (counterBump sb.counters favorite) favorite)
            (counterGet (counterBump sb.counters favorite) w) = true
        · rw [if_pos hgt] at hv2c
          have hfw : favorite = w2 := Option.some_inj.mp hv2c
          subst hfw
          have hwf : w ≠ favorite := fun hEq => hne hEq.symm
          rw [counterGet_bump_self, counterGet_bump_other _ _ _ hwf] at hgt
          rw [counterVal, counterVal, counterGet_bump_self,
            counterGet_bump_other _ _ _ hwf]
          cases hgw : counterGet sb.counters w with
          | none => simp
          | some cw =>
            rw [hgw] at hgt
            simp only [optGt, decide_eq_true_eq] at hgt
            simpa using hgt
        · rw [if_neg hgt] at hv2c
          exact absurd (Option.some_inj.mp hv2c).symm hne
    · rw [tick_no_quorum sb votes hdf hq] at h
      have h2 := Option.some_inj.mp h
      have hv2b : sb.value = some w2 := by rw [← h2] at hv2; exact hv2
      rw [hv] at hv2b
      exact absurd (Option.some_inj.mp hv2b).symm hne

/-- C1 (amended): in every reachable weighted Snowball state, the current
value maximizes `per_value_counters`; and the preference moves to a
different quorum winner only when that winner's counter strictly exceeds
the current value's counter, so on a tie the incumbent value is retained
(the most recent quorum winner does NOT win ties). -/
theorem c1_value_argmax (T : Type) [DecidableEq T] :
    (∀ sb : Snowball T, SReachable sb → ∀ w, sb.value = some w →
      ∀ v, counterVal sb.counters v ≤ counterVal sb.counters w) ∧
    (∀ (sb : Snowball T) (votes : List (T × ℚ)) (sb2 : Snowball T) (w w2 : T),
      Snowball.tick sb votes = some sb2 → sb.value = some w → sb2.value = some w2 →
      w2 ≠ w → counterVal sb2.counters w < counterVal sb2.counters w2) :=
  ⟨fun sb hr w hw v => (sreachable_argmax sb hr).2 w hw v,
   fun sb votes sb2 w w2 h hv hv2 hne =>
     tick_value_change_strict sb votes sb2 w w2 h hv hv2 hne⟩

/-- Witness for C1 at concrete reachable states: after one quorum round
on R the counter of R dominates; and a tick that moves the preference
from R to B exhibits strict dominance of B's counter. -/
theorem c1_witness :
    counterVal [(Color.R, 1)] Color.B ≤ counterVal [(Color.R, 1)] Color.R ∧
    counterVal [(Color.R, 1), (Color.B, 2)] Color.R <
      counterVal [(Color.R, 1), (Color.B, 2)] Color.B := by
  constructor
  · exact (c1_value_argmax Color).1
      ⟨some Color.R, false, 1, [(Color.R, 1)], 5, 4, 3⟩
      (SReachable.step (Snowball.new Color 5 4 3) [(Color.R, 4)]
        ⟨some Color.R, false, 1, [(Color.R, 1)], 5, 4, 3⟩
        (SReachable.init 5 4 3) (by with_unfolding_all decide))
      Color.R rfl Color.B
  · exact (c1_value_argmax Color).2
      ⟨some Color.R, false, 1, [(Color.R, 1), (Color.B, 1)], 5, 4, 3⟩ [(Color.B, 4)]
      ⟨some Color.B, false, 1, [(Color.R, 1), (Color.B, 2)], 5, 4, 3⟩ Color.R Color.B
      (by with_unfolding_all decide) rfl rfl (by decide)

/-! ## C5 / C6 amended behaviour -/

/-- C5 (amended): the decoders permit trailing bytes; malformed input
(truncation, invalid option tag) makes the `unwrap` of the bincode result
abort the process (`none`) instead of returning a `DecodeError`; and no
stored-id comparison exists: `Transaction::deserialize` rebuilds the
record via `Transaction::new`, recomputing the id from the decoded
`(sender, nonce)` (the pair encoding carries no id), so its result always
satisfies the id invariant by construction rather than by a check. -/
theorem c5_decode_behaviour :
    (∀ (data : List Nat) (tx : Transaction), Transaction.deserialize data = some tx →
      tx.id = Transaction.generate_id tx.sender tx.nonce) ∧
    (Transaction.deserialize (Transaction.serialize [0, 1, 2, 3, 4] 42 ++ [7]) =
      some (Transaction.new [0, 1, 2, 3, 4] 42)) ∧
    (Transaction.deserialize [5, 0, 0] = none) ∧
    (Block.deserialize [0, 0, 0, 0, 0, 0, 0, 0, 2] = none) := by
  refine ⟨?_, by decide, by decide, by decide⟩
  intro data tx h
  unfold Transaction.deserialize at h
  cases h1 : readVecU8 data with
  | none => rw [h1] at h; cases h
  | some p =>
    obtain ⟨s, r1⟩ := p
    rw [h1] at h
    have h2 : (match readU64 r1 with
      | none => none
      | some (n, _) => some (Transaction.new s n)) = some tx := h
    cases h3 : readU64 r1 with
    | none => rw [h3] at h2; cases h2
    | some q =>
      obtain ⟨n, r2⟩ := q
      rw [h3] at h2
      have h4 : Transaction.new s n = tx := Option.some_inj.mp h2
      rw [← h4]
      rfl

/-- Witness for C5 (amended) at concrete bytes: the decoded transaction
satisfies the id invariant because the id was recomputed. -/
theorem c5_witness :
    (Transaction.new [0, 1, 2, 3, 4] 42).id =
      Transaction.generate_id (Transaction.new [0, 1, 2, 3, 4] 42).sender
        (Transaction.new [0, 1, 2, 3, 4] 42).nonce :=
  c5_decode_behaviour.1 (Transaction.serialize [0, 1, 2, 3, 4] 42)
    (Transaction.new [0, 1, 2, 3, 4] 42) (by decide)

/-- C6 (amended): an empty vote set is not rejected with a domain error.
The weighted variant treats it as a failed round: the tick succeeds and
resets `counter` to 0 (changing the state whenever `counter` was
nonzero), leaving `value`, `done` and the per-value counters unchanged.
The multiset variant aborts the process on the `unwrap` of a missing
first vote. -/
theorem c6_empty_votes (T : Type) [DecidableEq T] :
    (∀ sb : Snowball T, sb.done = false → 0 < sb.quorum_size →
      Snowball.tick sb ([] : List (T × ℚ)) = some { sb with counter := 0 }) ∧
    (∀ sb : MSnowball T, sb.is_done = false →
      MSnowball.tick sb ([] : List T) = none) := by
  constructor
  · intro sb hd hquorum
    apply tick_no_quorum sb [] hd
    intro hle
    have h0 : (favoriteOf T ([] : List (T × ℚ))).2 = 0 := rfl
    rw [h0] at hle
    have hlen : ((List.length ([] : List (T × ℚ))) : ℚ) = 0 := by simp
    rw [hlen] at hle
    have hmax : max (0 : ℚ) 2 = 2 := by norm_num
    rw [hmax] at hle
    have heq : (sb.quorum_size : ℚ) * 2 / 2 = (sb.quorum_size : ℚ) := by ring
    rw [heq] at hle
    have hq0 : (0 : ℚ) < (sb.quorum_size : ℚ) := by exact_mod_cast hquorum
    linarith
  · intro sb hd
    simp [MSnowball.tick, hd, MSnowball.count_votes]

/-- Witness for C6 (amended): at a concrete not-yet-done state with
counter 1, the weighted tick on the empty map succeeds and resets the
counter; the fresh multiset instance aborts on the empty vote vector. -/
theorem c6_witness :
    Snowball.tick
        (⟨some Color.R, false, 1, [(Color.R, 1)], 5, 4, 3⟩ : Snowball Color)
        ([] : List (Color × ℚ)) =
      some (⟨some Color.R, false, 0, [(Color.R, 1)], 5, 4, 3⟩ : Snowball Color) ∧
    MSnowball.tick (MSnowball.new Color 5 4 3) ([] : List Color) = none := by
  constructor
  · exact (c6_empty_votes Color).1
      ⟨some Color.R, false, 1, [(Color.R, 1)], 5, 4, 3⟩ rfl (by decide)
  · exact (c6_empty_votes Color).2 (MSnowball.new Color 5 4 3) rfl
